import Mathlib

/-!
Verification of the process-capability query-and-render tool.

The driver (`progs/getpcaps.c`) is embedded directly from the C source.
The capability-set core (CapabilitySet, CapabilityNameTable, TextCodec)
is not part of the source tree, so it is modelled from the specification,
as marked on each definition.
-/

set_option maxHeartbeats 1000000

instance {ε α : Type} [DecidableEq ε] [DecidableEq α] : DecidableEq (Except ε α) :=
  fun x y =>
  match x, y with
  | .ok a, .ok b => if h : a = b then isTrue (by rw [h]) else isFalse (by simp [h])
  | .error e, .error f => if h : e = f then isTrue (by rw [h]) else isFalse (by simp [h])
  | .ok _, .error _ => isFalse (by simp)
  | .error _, .ok _ => isFalse (by simp)

/-- Modelled from the spec: `MAX_CAP`, the externally configured constant
bounding the capability index universe (the kernel table targeted by the
1999-era source has indices 0..26). -/
def MAX_CAP : Nat := 27

instance : NeZero MAX_CAP := ⟨by decide⟩

/-- Modelled from the spec: the error taxonomy of the core (§7), restricted
to the kinds raised by CapabilitySet operations and the text codec. -/
inductive CapError where
  | IndexOutOfRange
  | UnknownCapabilityIndex
  | UnknownCapabilityName
  | MalformedCapabilityText
  deriving DecidableEq, Repr

/-- Modelled from the spec: the three flag vectors a capability may belong to. -/
inductive FlagKind where
  | effective
  | permitted
  | inheritable
  deriving DecidableEq, Repr

/-- Modelled from the spec: a CapabilitySet is three parallel bit-vectors
(effective, permitted, inheritable) over `[0, MAX_CAP)`, here three finite
sets of in-range indices. -/
structure CapabilitySet where
  effective : Finset (Fin MAX_CAP)
  permitted : Finset (Fin MAX_CAP)
  inheritable : Finset (Fin MAX_CAP)
  deriving DecidableEq

/-- Modelled from the spec: `empty()` returns the all-clear set. -/
def CapabilitySet.empty : CapabilitySet := ⟨∅, ∅, ∅⟩

/-- Select one of the three vectors. -/
def CapabilitySet.vec (s : CapabilitySet) : FlagKind → Finset (Fin MAX_CAP)
  | .effective => s.effective
  | .permitted => s.permitted
  | .inheritable => s.inheritable

/-- Replace one of the three vectors. -/
def CapabilitySet.updateVec (s : CapabilitySet) (which : FlagKind)
    (v : Finset (Fin MAX_CAP)) : CapabilitySet :=
  match which with
  | .effective => { s with effective := v }
  | .permitted => { s with permitted := v }
  | .inheritable => { s with inheritable := v }

/-- Modelled from the spec: `isSet(which, idx)` tests one bit and fails with
`IndexOutOfRange` when `idx >= MAX_CAP`. -/
def CapabilitySet.isSet (s : CapabilitySet) (which : FlagKind) (idx : Nat) :
    Except CapError Bool :=
  if h : idx < MAX_CAP then .ok (⟨idx, h⟩ ∈ s.vec which)
  else .error .IndexOutOfRange

/-- Modelled from the spec: `set(which, idx)` raises one bit; same range
contract as `isSet`. -/
def CapabilitySet.set (s : CapabilitySet) (which : FlagKind) (idx : Nat) :
    Except CapError CapabilitySet :=
  if h : idx < MAX_CAP then .ok (s.updateVec which (insert ⟨idx, h⟩ (s.vec which)))
  else .error .IndexOutOfRange

/-- Modelled from the spec: `clear(which, idx)` clears one bit; same range
contract as `isSet`. -/
def CapabilitySet.clear (s : CapabilitySet) (which : FlagKind) (idx : Nat) :
    Except CapError CapabilitySet :=
  if h : idx < MAX_CAP then .ok (s.updateVec which ((s.vec which).erase ⟨idx, h⟩))
  else .error .IndexOutOfRange

/-- Modelled from the spec: the CapabilityNameTable, the built-in compiled
table of canonical lowercase names mirroring the targeted kernel list
(Linux 2.2 era, indices 0..26). -/
def capNameList : List String :=
  ["chown", "dac_override", "dac_read_search", "fowner", "fsetid", "kill",
   "setgid", "setuid", "setpcap", "linux_immutable", "net_bind_service",
   "net_broadcast", "net_admin", "net_raw", "ipc_lock", "ipc_owner",
   "sys_module", "sys_rawio", "sys_chroot", "sys_ptrace", "sys_pacct",
   "sys_admin", "sys_boot", "sys_nice", "sys_resource", "sys_time",
   "sys_tty_config"]

theorem capNameList_length : capNameList.length = MAX_CAP := rfl

/-- Modelled from the spec: `nameOf(idx)`, the canonical name of an in-range
index, as a character list. -/
def nameOf (i : Fin MAX_CAP) : List Char :=
  (capNameList.get (Fin.cast capNameList_length.symm i)).data

/-- Modelled from the spec: `indexOf(name)`, the reverse lookup in the name
table; `none` models the `UnknownCapabilityName` failure. -/
def indexOf (nm : List Char) : Option (Fin MAX_CAP) :=
  (List.finRange MAX_CAP).find? (fun i => nameOf i == nm)

/-- A flag signature: the (effective, inheritable, permitted) tri-state of
one capability, in the fixed e, i, p rendering order. -/
abbrev Sig := Bool × Bool × Bool

/-- The signature of a capability index in a set. -/
def sigOf (s : CapabilitySet) (i : Fin MAX_CAP) : Sig :=
  (decide (i ∈ s.effective), decide (i ∈ s.inheritable), decide (i ∈ s.permitted))

/-- The all-clear signature: capability absent from every vector. -/
def noSig : Sig := (false, false, false)

/-- The seven non-empty flag signatures, in the fixed order the encoder
enumerates group clauses. -/
def allSigs : List Sig :=
  [(true, false, false), (true, true, false), (true, false, true),
   (true, true, true), (false, true, false), (false, true, true),
   (false, false, true)]

/-- Modelled from the spec: the flag suffix of a group, single-letter codes
in the fixed order e, i, p. -/
def flagsOf (t : Sig) : List Char :=
  (if t.1 then ['e'] else []) ++ (if t.2.1 then ['i'] else []) ++
  (if t.2.2 then ['p'] else [])

/-- The capability indices of a set carrying a given signature, in ascending
index order. -/
def membersOf (s : CapabilitySet) (t : Sig) : List (Fin MAX_CAP) :=
  (List.finRange MAX_CAP).filter (fun i => sigOf s i == t)

/-- Modelled from the spec: the encoder partition — one group per inhabited
non-empty signature, members ascending; capabilities with no flag set
anywhere appear in no group. -/
def groupsOf (s : CapabilitySet) : List (Sig × List (Fin MAX_CAP)) :=
  allSigs.filterMap (fun t =>
    if membersOf s t = [] then none else some (t, membersOf s t))

/-- Join chunks with a single separator character between them. -/
def joinSep (sep : Char) : List (List Char) → List Char
  | [] => []
  | [x] => x
  | x :: y :: xs => x ++ sep :: joinSep sep (y :: xs)

/-- Modelled from the spec: one group rendered as `name1,name2,...=<flags>`. -/
def renderGroup (g : Sig × List (Fin MAX_CAP)) : List Char :=
  joinSep ',' (g.2.map nameOf) ++ '=' :: flagsOf g.1

/-- Modelled from the spec: `TextCodec.encode` — groups joined by a single
space, or the literal `=` marker for the completely empty set. -/
def encode (s : CapabilitySet) : List Char :=
  if groupsOf s = [] then ['=']
  else joinSep ' ' ((groupsOf s).map renderGroup)

/-- `encode` packaged as a `String`. -/
def encodeString (s : CapabilitySet) : String := ⟨encode s⟩

/-- Prepend a character to the first chunk of a chunk list. -/
def consHead (c : Char) : List (List Char) → List (List Char)
  | [] => [[c]]
  | h :: t => (c :: h) :: t

/-- Split a character list at every occurrence of a separator. -/
def splitSep (sep : Char) : List Char → List (List Char)
  | [] => [[]]
  | c :: r => if c = sep then [] :: splitSep sep r else consHead c (splitSep sep r)

/-- Consume one expected flag letter from the front, if present. -/
def takeFlag (c : Char) : List Char → Bool × List Char
  | [] => (false, [])
  | x :: r => if x = c then (true, r) else (false, x :: r)

/-- Modelled from the spec: parse a flag suffix — letters only from e, i, p,
each at most once, in that fixed order, and non-empty; anything else is
`MalformedCapabilityText`. -/
def parseFlags (fl : List Char) : Except CapError Sig :=
  let r1 := takeFlag 'e' fl
  let r2 := takeFlag 'i' r1.2
  let r3 := takeFlag 'p' r2.2
  if r3.2 = [] ∧ (r1.1 ∨ r2.1 ∨ r3.1) then .ok (r1.1, r2.1, r3.1)
  else .error .MalformedCapabilityText

/-- Modelled from the spec: look up each listed name in the name table,
failing with `UnknownCapabilityName` on a token the table does not hold. -/
def lookupNames : List (List Char) → Except CapError (List (Fin MAX_CAP))
  | [] => .ok []
  | n :: ns =>
    match indexOf n with
    | none => .error .UnknownCapabilityName
    | some i =>
      match lookupNames ns with
      | .error e => .error e
      | .ok is => .ok (i :: is)

/-- Parse the two halves of a group: the comma-joined name list and the
flag suffix. -/
def parseGroupParts (nms fl : List Char) : Except CapError (Sig × List (Fin MAX_CAP)) :=
  match lookupNames (splitSep ',' nms) with
  | .error e => .error e
  | .ok is =>
    match parseFlags fl with
    | .error e => .error e
    | .ok t => .ok (t, is)

/-- Modelled from the spec: parse one group `name1,name2,...=<flags>`;
a chunk without exactly one unquoted `=` separator is malformed. -/
def parseGroup (c : List Char) : Except CapError (Sig × List (Fin MAX_CAP)) :=
  match splitSep '=' c with
  | [nms, fl] => parseGroupParts nms fl
  | _ => .error .MalformedCapabilityText

/-- Parse every space-separated group chunk, surfacing the first failure. -/
def parseGroups : List (List Char) → Except CapError (List (Sig × List (Fin MAX_CAP)))
  | [] => .ok []
  | c :: cs =>
    match parseGroup c with
    | .error e => .error e
    | .ok g =>
      match parseGroups cs with
      | .error e => .error e
      | .ok gs => .ok (g :: gs)

/-- Raise the bits of one parsed group in the indicated vectors. -/
def addGroup (g : Sig × List (Fin MAX_CAP)) (s : CapabilitySet) : CapabilitySet :=
  { effective := if g.1.1 then s.effective ∪ g.2.toFinset else s.effective
    inheritable := if g.1.2.1 then s.inheritable ∪ g.2.toFinset else s.inheritable
    permitted := if g.1.2.2 then s.permitted ∪ g.2.toFinset else s.permitted }

/-- Populate a CapabilitySet from a list of parsed groups. -/
def buildSet : List (Sig × List (Fin MAX_CAP)) → CapabilitySet
  | [] => CapabilitySet.empty
  | g :: gs => addGroup g (buildSet gs)

/-- Modelled from the spec: `TextCodec.decode`, the inverse of `encode`;
the literal `=` decodes to the empty set, otherwise the text is split into
space-separated groups and each group is parsed. -/
def decode (t : List Char) : Except CapError CapabilitySet :=
  if t = ['='] then .ok CapabilitySet.empty
  else
    match parseGroups (splitSep ' ' t) with
    | .error e => .error e
    | .ok gs => .ok (buildSet gs)

/-- `decode` taking a `String`. -/
def decodeString (t : String) : Except CapError CapabilitySet := decode t.data

/-- The output streams the driver writes to. -/
inductive OutStream where
  | stdout
  | stderr
  deriving DecidableEq, Repr

/-- Modelled from the spec: the typed failures of `ProcessCapabilityQuery`. -/
inductive QueryError where
  | ProcessNotFound
  | PermissionDenied
  | QueryFailed (errno : Nat)
  deriving DecidableEq, Repr

/-- One line the driver emits, tagged by the stream it is written to. -/
structure Event where
  stream : OutStream
  text : String
  deriving DecidableEq, Repr

/-- The kernel capability-read primitive backing `capgetp`: for a pid it
produces a populated CapabilitySet or a typed failure. -/
abbrev Kernel := Int → Except QueryError CapabilitySet

/-- The strerror-style text of a query failure. -/
def errText : QueryError → String
  | .ProcessNotFound => "No such process"
  | .PermissionDenied => "Operation not permitted"
  | .QueryFailed n => "errno " ++ toString n

/-- From getpcaps.c lines 50-51: the per-pid failure report, on stderr. -/
def errEvent (pid : Int) (e : QueryError) : Event :=
  ⟨.stderr, "Failed to get caps for process " ++ toString pid ++ ": (" ++ errText e ++ ")"⟩

/-- From getpcaps.c lines 54-55: the per-pid success report, on stderr. -/
def okEvent (pid : Int) (s : CapabilitySet) : Event :=
  ⟨.stderr, "Capabilities for " ++ toString pid ++ ": " ++ encodeString s⟩

/-- From getpcaps.c lines 49-58: one loop iteration. `capgetp` either fills
the (shared) working set wholesale from the kernel, whose contents are then
rendered, or fails, leaving the working set untouched and reporting the
error for this pid only. -/
def processOne (kernel : Kernel) (capd : CapabilitySet) (pid : Int) :
    CapabilitySet × Event :=
  match kernel pid with
  | .error e => (capd, errEvent pid e)
  | .ok s => (s, okEvent pid s)

/-- From getpcaps.c lines 37-59: the batch loop over all pid arguments,
threading the single working capability set allocated by `cap_init`;
returns the emitted events and the final state of the working set. -/
def runLoop (kernel : Kernel) : CapabilitySet → List Int → List Event × CapabilitySet
  | capd, [] => ([], capd)
  | capd, pid :: rest =>
    let r := processOne kernel capd pid
    let rr := runLoop kernel r.1 rest
    (r.2 :: rr.1, rr.2)

/-- The outcome the driver reports for one pid, as determined by the kernel
response alone. -/
def eventOf (kernel : Kernel) (pid : Int) : Event :=
  match kernel pid with
  | .error e => errEvent pid e
  | .ok s => okEvent pid s

/-- From getpcaps.c lines 17-26: the usage banner, printed to stderr. -/
def usageEvent : Event := ⟨.stderr, "usage: getcaps <pid> [<pid> ...]"⟩

/-- From getpcaps.c lines 41-45: the allocation-failure report, on stderr. -/
def allocFailEvent : Event := ⟨.stderr, "Failed to make a blank capability set"⟩

/-- Every index finds its own canonical name in the table. -/
theorem indexOf_nameOf : ∀ i : Fin MAX_CAP, indexOf (nameOf i) = some i := by decide

/-- Every canonical name is non-empty and avoids the three separator
characters of the text grammar. -/
theorem nameOf_wf : ∀ i : Fin MAX_CAP,
    nameOf i ≠ [] ∧ ∀ c ∈ nameOf i, c ≠ ' ' ∧ c ≠ '=' ∧ c ≠ ',' := by decide

/-- Every non-empty signature is enumerated by the encoder. -/
theorem mem_allSigs : ∀ t : Sig, t ≠ noSig → t ∈ allSigs := by decide

/-- Flag suffixes never contain a separator character. -/
theorem flagsOf_wf : ∀ t : Sig, ' ' ∉ flagsOf t ∧ '=' ∉ flagsOf t ∧ ',' ∉ flagsOf t := by
  decide

/-- The flag parser inverts the flag renderer on every inhabited signature. -/
theorem parseFlags_flagsOf : ∀ t ∈ allSigs, parseFlags (flagsOf t) = .ok t := by decide

theorem splitSep_not_mem (sep : Char) (l : List Char) (h : sep ∉ l) :
    splitSep sep l = [l] := by
  induction l with
  | nil => rfl
  | cons c r ih =>
    simp only [List.mem_cons, not_or] at h
    rw [splitSep, if_neg (fun hh => h.1 hh.symm), ih h.2]
    rfl

theorem splitSep_append (sep : Char) (l₁ l₂ : List Char) (h : sep ∉ l₁) :
    splitSep sep (l₁ ++ sep :: l₂) = l₁ :: splitSep sep l₂ := by
  induction l₁ with
  | nil => simp [splitSep]
  | cons c r ih =>
    simp only [List.mem_cons, not_or] at h
    rw [List.cons_append, splitSep, if_neg (fun hh => h.1 hh.symm), ih h.2]
    rfl

theorem mem_joinSep (sep : Char) (L : List (List Char)) (c : Char)
    (hc : c ∈ joinSep sep L) : c = sep ∨ ∃ x ∈ L, c ∈ x := by
  induction L with
  | nil => simp [joinSep] at hc
  | cons x t ih =>
    cases t with
    | nil => exact Or.inr ⟨x, by simp, by simpa [joinSep] using hc⟩
    | cons y ts =>
      rw [joinSep] at hc
      rcases List.mem_append.1 hc with h | h
      · exact Or.inr ⟨x, by simp, h⟩
      · rcases List.mem_cons.1 h with h | h
        · exact Or.inl h
        · rcases ih h with h | ⟨z, hz, hcz⟩
          · exact Or.inl h
          · exact Or.inr ⟨z, List.mem_cons_of_mem _ hz, hcz⟩

theorem splitSep_joinSep (sep : Char) (L : List (List Char)) (hL : L ≠ [])
    (hx : ∀ x ∈ L, sep ∉ x) : splitSep sep (joinSep sep L) = L := by
  induction L with
  | nil => exact absurd rfl hL
  | cons x t ih =>
    cases t with
    | nil => simpa [joinSep] using splitSep_not_mem sep x (hx x (by simp))
    | cons y ts =>
      rw [joinSep, splitSep_append sep x _ (hx x (by simp)),
        ih (by simp) (fun z hz => hx z (List.mem_cons_of_mem _ hz))]

theorem joinSep_cons (sep : Char) (x : List Char) (xs : List (List Char)) :
    ∃ r, joinSep sep (x :: xs) = x ++ r := by
  cases xs with
  | nil => exact ⟨[], by simp [joinSep]⟩
  | cons y ts => exact ⟨sep :: joinSep sep (y :: ts), rfl⟩

theorem lookupNames_map (is : List (Fin MAX_CAP)) :
    lookupNames (is.map nameOf) = .ok is := by
  induction is with
  | nil => rfl
  | cons i it ih => simp [lookupNames, indexOf_nameOf i, ih]

theorem parseGroup_render (t : Sig) (is : List (Fin MAX_CAP)) (ht : t ∈ allSigs)
    (his : is ≠ []) : parseGroup (renderGroup (t, is)) = .ok (t, is) := by
  have hnames : ∀ x ∈ is.map nameOf, '=' ∉ x ∧ ',' ∉ x := by
    intro x hx
    rcases List.mem_map.1 hx with ⟨i, _, rfl⟩
    exact ⟨fun hc => ((nameOf_wf i).2 '=' hc).2.1 rfl,
      fun hc => ((nameOf_wf i).2 ',' hc).2.2 rfl⟩
  have hjoin : '=' ∉ joinSep ',' (is.map nameOf) := by
    intro hc
    rcases mem_joinSep ',' _ '=' hc with h | ⟨x, hx, hcx⟩
    · exact absurd h (by decide)
    · exact (hnames x hx).1 hcx
  rw [parseGroup, renderGroup, splitSep_append '=' _ _ hjoin,
    splitSep_not_mem '=' (flagsOf t) (flagsOf_wf t).2.1]
  show parseGroupParts (joinSep ',' (is.map nameOf)) (flagsOf t) = .ok (t, is)
  rw [parseGroupParts, splitSep_joinSep ',' (is.map nameOf) (by simpa using his)
    (fun x hx => (hnames x hx).2)]
  rw [lookupNames_map is, parseFlags_flagsOf t ht]

theorem parseGroups_map (gs : List (Sig × List (Fin MAX_CAP)))
    (h : ∀ g ∈ gs, g.1 ∈ allSigs ∧ g.2 ≠ []) :
    parseGroups (gs.map renderGroup) = .ok gs := by
  induction gs with
  | nil => rfl
  | cons g gt ih =>
    have hg := h g (by simp)
    simp [parseGroups, parseGroup_render g.1 g.2 hg.1 hg.2,
      ih (fun x hx => h x (List.mem_cons_of_mem _ hx))]

theorem mem_membersOf {s : CapabilitySet} {i : Fin MAX_CAP} {t : Sig} :
    i ∈ membersOf s t ↔ sigOf s i = t := by
  simp [membersOf, List.mem_filter, List.mem_finRange]

theorem mem_groupsOf {s : CapabilitySet} {t : Sig} {m : List (Fin MAX_CAP)} :
    (t, m) ∈ groupsOf s ↔ t ∈ allSigs ∧ membersOf s t ≠ [] ∧ m = membersOf s t := by
  simp only [groupsOf, List.mem_filterMap]
  constructor
  · rintro ⟨a, ha, hf⟩
    by_cases hm : membersOf s a = []
    · simp [hm] at hf
    · rw [if_neg hm] at hf
      rcases Option.some.injEq _ _ ▸ hf with h
      have h1 : a = t := congrArg Prod.fst h
      have h2 : membersOf s a = m := congrArg Prod.snd h
      subst h1
      exact ⟨ha, hm, h2.symm⟩
  · rintro ⟨ht, hm, rfl⟩
    exact ⟨t, ht, by simp [hm]⟩

theorem mem_renderGroup {c : Char} {g : Sig × List (Fin MAX_CAP)}
    (hc : c ∈ renderGroup g) :
    c = ',' ∨ c = '=' ∨ c ∈ flagsOf g.1 ∨ ∃ i ∈ g.2, c ∈ nameOf i := by
  rw [renderGroup] at hc
  rcases List.mem_append.1 hc with h | h
  · rcases mem_joinSep ',' _ c h with h | ⟨x, hx, hcx⟩
    · exact Or.inl h
    · rcases List.mem_map.1 hx with ⟨i, hi, rfl⟩
      exact Or.inr (Or.inr (Or.inr ⟨i, hi, hcx⟩))
  · rcases List.mem_cons.1 h with h | h
    · exact Or.inr (Or.inl h)
    · exact Or.inr (Or.inr (Or.inl h))

theorem space_not_mem_renderGroup {g : Sig × List (Fin MAX_CAP)} :
    ' ' ∉ renderGroup g := by
  intro hc
  rcases mem_renderGroup hc with h | h | h | ⟨i, _, hci⟩
  · exact absurd h (by decide)
  · exact absurd h (by decide)
  · exact (flagsOf_wf g.1).1 h
  · exact ((nameOf_wf i).2 ' ' hci).1 rfl

theorem capSet_eq {a b : CapabilitySet} (he : a.effective = b.effective)
    (hp : a.permitted = b.permitted) (hi : a.inheritable = b.inheritable) :
    a = b := by
  cases a; cases b; simp_all

theorem mem_buildSet_eff (L : List (Sig × List (Fin MAX_CAP))) (i : Fin MAX_CAP) :
    i ∈ (buildSet L).effective ↔ ∃ g ∈ L, g.1.1 = true ∧ i ∈ g.2 := by
  induction L with
  | nil => simp [buildSet, CapabilitySet.empty]
  | cons g gt ih =>
    simp only [buildSet, addGroup]
    by_cases hg : g.1.1 = true
    · simp only [hg, if_pos, Finset.mem_union, List.mem_toFinset, ih, List.mem_cons]
      constructor
      · rintro (⟨x, hx, hx1, hxi⟩ | hi2)
        · exact ⟨x, Or.inr hx, hx1, hxi⟩
        · exact ⟨g, Or.inl rfl, hg, hi2⟩
      · rintro ⟨x, hx | hx, hx1, hxi⟩
        · subst hx; exact Or.inr hxi
        · exact Or.inl ⟨x, hx, hx1, hxi⟩
    · simp only [if_neg hg, ih, List.mem_cons]
      constructor
      · rintro ⟨x, hx, hx1, hxi⟩
        exact ⟨x, Or.inr hx, hx1, hxi⟩
      · rintro ⟨x, hx | hx, hx1, hxi⟩
        · subst hx; exact absurd hx1 hg
        · exact ⟨x, hx, hx1, hxi⟩

theorem mem_buildSet_inh (L : List (Sig × List (Fin MAX_CAP))) (i : Fin MAX_CAP) :
    i ∈ (buildSet L).inheritable ↔ ∃ g ∈ L, g.1.2.1 = true ∧ i ∈ g.2 := by
  induction L with
  | nil => simp [buildSet, CapabilitySet.empty]
  | cons g gt ih =>
    simp only [buildSet, addGroup]
    by_cases hg : g.1.2.1 = true
    · simp only [hg, if_pos, Finset.mem_union, List.mem_toFinset, ih, List.mem_cons]
      constructor
      · rintro (⟨x, hx, hx1, hxi⟩ | hi2)
        · exact ⟨x, Or.inr hx, hx1, hxi⟩
        · exact ⟨g, Or.inl rfl, hg, hi2⟩
      · rintro ⟨x, hx | hx, hx1, hxi⟩
        · subst hx; exact Or.inr hxi
        · exact Or.inl ⟨x, hx, hx1, hxi⟩
    · simp only [if_neg hg, ih, List.mem_cons]
      constructor
      · rintro ⟨x, hx, hx1, hxi⟩
        exact ⟨x, Or.inr hx, hx1, hxi⟩
      · rintro ⟨x, hx | hx, hx1, hxi⟩
        · subst hx; exact absurd hx1 hg
        · exact ⟨x, hx, hx1, hxi⟩

theorem mem_buildSet_perm (L : List (Sig × List (Fin MAX_CAP))) (i : Fin MAX_CAP) :
    i ∈ (buildSet L).permitted ↔ ∃ g ∈ L, g.1.2.2 = true ∧ i ∈ g.2 := by
  induction L with
  | nil => simp [buildSet, CapabilitySet.empty]
  | cons g gt ih =>
    simp only [buildSet, addGroup]
    by_cases hg : g.1.2.2 = true
    · simp only [hg, if_pos, Finset.mem_union, List.mem_toFinset, ih, List.mem_cons]
      constructor
      · rintro (⟨x, hx, hx1, hxi⟩ | hi2)
        · exact ⟨x, Or.inr hx, hx1, hxi⟩
        · exact ⟨g, Or.inl rfl, hg, hi2⟩
      · rintro ⟨x, hx | hx, hx1, hxi⟩
        · subst hx; exact Or.inr hxi
        · exact Or.inl ⟨x, hx, hx1, hxi⟩
    · simp only [if_neg hg, ih, List.mem_cons]
      constructor
      · rintro ⟨x, hx, hx1, hxi⟩
        exact ⟨x, Or.inr hx, hx1, hxi⟩
      · rintro ⟨x, hx | hx, hx1, hxi⟩
        · subst hx; exact absurd hx1 hg
        · exact ⟨x, hx, hx1, hxi⟩

theorem mem_of_groups_proj (s : CapabilitySet) (i : Fin MAX_CAP) (f : Sig → Bool)
    (hf0 : f noSig = false) :
    (∃ g ∈ groupsOf s, f g.1 = true ∧ i ∈ g.2) ↔ f (sigOf s i) = true := by
  constructor
  · rintro ⟨g, hg, hg1, hgi⟩
    rcases mem_groupsOf.1 (show (g.1, g.2) ∈ groupsOf s from hg) with ⟨_, _, hm⟩
    have hsig : sigOf s i = g.1 := mem_membersOf.1 (hm ▸ hgi)
    rw [hsig]
    exact hg1
  · intro hf
    have hne : sigOf s i ≠ noSig := fun h => by
      rw [h, hf0] at hf
      exact Bool.false_ne_true hf
    exact ⟨(sigOf s i, membersOf s (sigOf s i)),
      mem_groupsOf.2 ⟨mem_allSigs _ hne, List.ne_nil_of_mem (mem_membersOf.2 rfl), rfl⟩,
      hf, mem_membersOf.2 rfl⟩

theorem buildSet_groupsOf (s : CapabilitySet) : buildSet (groupsOf s) = s := by
  apply capSet_eq
  · apply Finset.ext
    intro i
    rw [mem_buildSet_eff, mem_of_groups_proj s i (fun t => t.1) rfl]
    exact decide_eq_true_iff
  · apply Finset.ext
    intro i
    rw [mem_buildSet_perm, mem_of_groups_proj s i (fun t => t.2.2) rfl]
    exact decide_eq_true_iff
  · apply Finset.ext
    intro i
    rw [mem_buildSet_inh, mem_of_groups_proj s i (fun t => t.2.1) rfl]
    exact decide_eq_true_iff

theorem groupsOf_eq_nil {s : CapabilitySet} (h : groupsOf s = []) :
    s = CapabilitySet.empty := by
  have hsig : ∀ i : Fin MAX_CAP, sigOf s i = noSig := by
    intro i
    by_contra hne
    have hmem : i ∈ membersOf s (sigOf s i) := mem_membersOf.2 rfl
    have hin : (sigOf s i, membersOf s (sigOf s i)) ∈ groupsOf s :=
      mem_groupsOf.2 ⟨mem_allSigs _ hne, List.ne_nil_of_mem hmem, rfl⟩
    rw [h] at hin
    exact absurd hin (List.not_mem_nil _)
  refine capSet_eq ?_ ?_ ?_
  · refine Finset.eq_empty_iff_forall_not_mem.2 fun i hi => ?_
    have h1 : decide (i ∈ s.effective) = false := congrArg (fun t => t.1) (hsig i)
    exact absurd hi (of_decide_eq_false h1)
  · refine Finset.eq_empty_iff_forall_not_mem.2 fun i hi => ?_
    have h1 : decide (i ∈ s.permitted) = false := congrArg (fun t => t.2.2) (hsig i)
    exact absurd hi (of_decide_eq_false h1)
  · refine Finset.eq_empty_iff_forall_not_mem.2 fun i hi => ?_
    have h1 : decide (i ∈ s.inheritable) = false := congrArg (fun t => t.2.1) (hsig i)
    exact absurd hi (of_decide_eq_false h1)

theorem groupsOf_wf (s : CapabilitySet) :
    ∀ g ∈ groupsOf s, g.1 ∈ allSigs ∧ g.2 ≠ [] := by
  intro g hg
  rcases mem_groupsOf.1 (show (g.1, g.2) ∈ groupsOf s from hg) with ⟨ht, hne, hm⟩
  exact ⟨ht, hm ▸ hne⟩

theorem encode_ne_emptyMark {s : CapabilitySet} (h : groupsOf s ≠ []) :
    encode s ≠ ['='] := by
  obtain ⟨g, gt, hgs⟩ := List.exists_cons_of_ne_nil h
  have hg : g.1 ∈ allSigs ∧ g.2 ≠ [] := by
    refine groupsOf_wf s g ?_
    rw [hgs]
    exact List.mem_cons_self _ _
  obtain ⟨i, it, hi⟩ := List.exists_cons_of_ne_nil hg.2
  obtain ⟨c, nm, hnm⟩ := List.exists_cons_of_ne_nil (nameOf_wf i).1
  have hc : c ≠ '=' := by
    refine ((nameOf_wf i).2 c ?_).2.1
    rw [hnm]
    exact List.mem_cons_self _ _
  rw [encode, if_neg h, hgs, List.map_cons]
  obtain ⟨r, hr⟩ := joinSep_cons ' ' (renderGroup g) (gt.map renderGroup)
  rw [hr, renderGroup, hi, List.map_cons]
  obtain ⟨r2, hr2⟩ := joinSep_cons ',' (nameOf i) (it.map nameOf)
  rw [hr2, hnm]
  simp only [List.cons_append, List.append_assoc]
  intro hEq
  injection hEq with h1 _
  exact hc h1

theorem decode_encode (s : CapabilitySet) : decode (encode s) = .ok s := by
  by_cases h : groupsOf s = []
  · rw [encode, if_pos h, decode, if_pos rfl, groupsOf_eq_nil h]
  · have hchunks : splitSep ' ' (encode s) = (groupsOf s).map renderGroup := by
      rw [encode, if_neg h]
      apply splitSep_joinSep
      · simpa using h
      · intro x hx
        rcases List.mem_map.1 hx with ⟨g, _, rfl⟩
        exact space_not_mem_renderGroup
    rw [decode, if_neg (encode_ne_emptyMark h), hchunks,
      parseGroups_map _ (groupsOf_wf s)]
    show Except.ok (buildSet (groupsOf s)) = Except.ok s
    rw [buildSet_groupsOf]

/-- From getpcaps.c main (lines 28-62): with no pid argument the usage
banner is printed and the exit status is 1; with arguments, a failed
`cap_init` prints a report and exits 1; otherwise the loop runs over every
argument and the exit status is 0 regardless of per-pid failures. -/
def mainRun (kernel : Kernel) (allocOk : Bool) (args : List Int) :
    List Event × Nat :=
  if args = [] then ([usageEvent], 1)
  else if allocOk then ((runLoop kernel CapabilitySet.empty args).1, 0)
  else ([allocFailEvent], 1)


/-- The events emitted by the batch loop are determined pid-by-pid from the
kernel response alone; the threaded working set never influences them. -/
theorem runLoop_events_eq_map (kernel : Kernel) (capd : CapabilitySet)
    (pids : List Int) : (runLoop kernel capd pids).1 = pids.map (eventOf kernel) := by
  induction pids generalizing capd with
  | nil => rfl
  | cons p ps ih =>
    cases hk : kernel p <;> simp [runLoop, processOne, eventOf, hk, ih]

theorem eventOf_stream (kernel : Kernel) (pid : Int) :
    (eventOf kernel pid).stream = .stderr := by
  cases hk : kernel pid <;> simp [eventOf, hk, errEvent, okEvent]

/-- Every inhabited signature renders a non-empty flag suffix that is a
subsequence of the fixed letter order e, i, p. -/
theorem flagsOf_props : ∀ t ∈ allSigs,
    flagsOf t ≠ [] ∧ (flagsOf t).Sublist ['e', 'i', 'p'] := by decide

/-- Enumerated signatures are never the all-clear signature. -/
theorem allSigs_ne_noSig : ∀ t ∈ allSigs, t ≠ noSig := by decide

/-- Index 0 (`chown`) as a capability index. -/
def capIdx0 : Fin MAX_CAP := ⟨0, by decide⟩

/-- A set with exactly one effective capability. -/
def sWitEff : CapabilitySet := ⟨{capIdx0}, ∅, ∅⟩

/-- A set with one capability effective and permitted. -/
def sWitEP : CapabilitySet := ⟨{capIdx0}, {capIdx0}, ∅⟩

/-- A kernel in which every query succeeds with the blank set. -/
def kernelA : Kernel := fun _ => .ok CapabilitySet.empty

/-- A kernel agreeing with `kernelA` everywhere except at pid 0. -/
def kernelB : Kernel := fun p =>
  if p = 0 then .error .ProcessNotFound else .ok CapabilitySet.empty

/-- A kernel for which only pid 1 resolves, to a non-empty set. -/
def kernelC : Kernel := fun p =>
  if p = 1 then .ok sWitEff else .error .ProcessNotFound

/-- A kernel for which pid 2 does not resolve and all others do. -/
def kernelW : Kernel := fun p =>
  if p = 2 then .error .ProcessNotFound else .ok CapabilitySet.empty

/-- C1: decoding the text produced by encoding any CapabilitySet built from
bits within `[0, MAX_CAP)` across the three vectors yields the set back:
decode(encode(s)) = s. -/
theorem claim_C1_round_trip (s : CapabilitySet) :
    decodeString (encodeString s) = .ok s :=
  decode_encode s

/-- C2: encoding the completely empty CapabilitySet produces exactly the
literal token `=`, never the empty string. -/
theorem claim_C2_encode_empty : encodeString CapabilitySet.empty = "=" := rfl

/-- C3: in every group of the encoded output, the flag suffix after `=` is
non-empty and a subsequence of the letters e, i, p in that fixed order, so
each letter occurs at most once and in order. -/
theorem claim_C3_flag_order (s : CapabilitySet) (g : Sig × List (Fin MAX_CAP))
    (hg : g ∈ groupsOf s) :
    flagsOf g.1 ≠ [] ∧ (flagsOf g.1).Sublist ['e', 'i', 'p'] :=
  flagsOf_props g.1 (groupsOf_wf s g hg).1

theorem claim_C3_witness :
    ((true, false, false), [capIdx0]) ∈ groupsOf sWitEff ∧
    (flagsOf (true, false, false) ≠ [] ∧
      (flagsOf (true, false, false)).Sublist ['e', 'i', 'p']) :=
  ⟨by decide, claim_C3_flag_order sWitEff ((true, false, false), [capIdx0]) (by decide)⟩

/-- C4: the encoder coalesces capabilities with identical tri-state
membership into the single group keyed by that signature; group member
lists are strictly ascending in capability index; a capability with no
flag set anywhere occurs in no group; and the non-empty output is the
rendered groups joined by single spaces. -/
theorem claim_C4_grouping (s : CapabilitySet) :
    (∀ i : Fin MAX_CAP, sigOf s i ≠ noSig →
      ∃ m, (sigOf s i, m) ∈ groupsOf s ∧ i ∈ m) ∧
    (∀ t m₁ m₂, (t, m₁) ∈ groupsOf s → (t, m₂) ∈ groupsOf s → m₁ = m₂) ∧
    (∀ t m, (t, m) ∈ groupsOf s → m.Pairwise (· < ·)) ∧
    (∀ i : Fin MAX_CAP, sigOf s i = noSig → ∀ t m, (t, m) ∈ groupsOf s → i ∉ m) ∧
    (groupsOf s ≠ [] → encode s = joinSep ' ' ((groupsOf s).map renderGroup)) := by
  refine ⟨?_, ?_, ?_, ?_, ?_⟩
  · intro i hne
    exact ⟨membersOf s (sigOf s i),
      mem_groupsOf.2 ⟨mem_allSigs _ hne, List.ne_nil_of_mem (mem_membersOf.2 rfl), rfl⟩,
      mem_membersOf.2 rfl⟩
  · intro t m₁ m₂ h₁ h₂
    rw [(mem_groupsOf.1 h₁).2.2, (mem_groupsOf.1 h₂).2.2]
  · intro t m hm
    rw [(mem_groupsOf.1 hm).2.2]
    exact List.Pairwise.sublist (List.filter_sublist _) (List.pairwise_lt_finRange _)
  · intro i h0 t m hm hi
    have hsig : sigOf s i = t := by
      refine mem_membersOf.1 ?_
      rw [← (mem_groupsOf.1 hm).2.2]
      exact hi
    exact allSigs_ne_noSig t (mem_groupsOf.1 hm).1 (hsig ▸ h0)
  · intro h
    rw [encode, if_neg h]

theorem claim_C4_witness :
    ∃ m, (sigOf sWitEP capIdx0, m) ∈ groupsOf sWitEP ∧ capIdx0 ∈ m :=
  (claim_C4_grouping sWitEP).1 capIdx0 (by decide)

/-- C5: `isSet`, `set` and `clear` on any CapabilitySet, any flag vector and
any index at or above `MAX_CAP` all fail with `IndexOutOfRange`; in the
`Except` result no out-of-range bit is ever touched. -/
theorem claim_C5_range (s : CapabilitySet) (which : FlagKind) (idx : Nat)
    (h : MAX_CAP ≤ idx) :
    s.isSet which idx = .error .IndexOutOfRange ∧
    s.set which idx = .error .IndexOutOfRange ∧
    s.clear which idx = .error .IndexOutOfRange := by
  have hn : ¬ idx < MAX_CAP := not_lt.2 h
  exact ⟨dif_neg hn, dif_neg hn, dif_neg hn⟩

theorem claim_C5_witness :
    MAX_CAP ≤ 27 ∧
    (CapabilitySet.empty.isSet .effective 27 = .error .IndexOutOfRange ∧
     CapabilitySet.empty.set .effective 27 = .error .IndexOutOfRange ∧
     CapabilitySet.empty.clear .effective 27 = .error .IndexOutOfRange) :=
  ⟨by decide, claim_C5_range CapabilitySet.empty .effective 27 (by decide)⟩

/-- C6: a query failure for one pid neither halts the batch nor disturbs any
other pid's result: for pids [P1, P2, P3] with P2 unresolvable the loop
reports success, ProcessNotFound, success in order. -/
theorem claim_C6_isolation (kernel : Kernel) (capd : CapabilitySet)
    (p1 p2 p3 : Int) (s1 s3 : CapabilitySet)
    (h1 : kernel p1 = .ok s1) (h2 : kernel p2 = .error .ProcessNotFound)
    (h3 : kernel p3 = .ok s3) :
    (runLoop kernel capd [p1, p2, p3]).1 =
      [okEvent p1 s1, errEvent p2 .ProcessNotFound, okEvent p3 s3] := by
  simp [runLoop, processOne, h1, h2, h3]

theorem claim_C6_witness :
    kernelW 1 = .ok CapabilitySet.empty ∧
    kernelW 2 = .error .ProcessNotFound ∧
    kernelW 3 = .ok CapabilitySet.empty ∧
    (runLoop kernelW CapabilitySet.empty [1, 2, 3]).1 =
      [okEvent 1 CapabilitySet.empty, errEvent 2 .ProcessNotFound,
       okEvent 3 CapabilitySet.empty] :=
  ⟨by decide, by decide, by decide,
    claim_C6_isolation kernelW CapabilitySet.empty 1 2 3 _ _ (by decide) (by decide)
      (by decide)⟩

/-- C7 counterexample: the driver passes pid 0 straight to the kernel query —
two kernels that differ only at pid 0 produce different driver output for
the token 0, so zero is not filtered as a caller-input error. -/
theorem claim_C7_counterexample :
    (∀ p : Int, p ≠ 0 → kernelA p = kernelB p) ∧
    (runLoop kernelA CapabilitySet.empty [0]).1 ≠
      (runLoop kernelB CapabilitySet.empty [0]).1 :=
  ⟨fun p hp => by simp [kernelA, kernelB, hp], by decide⟩

/-- C7 amended: the driver feeds every parsed token to the kernel query,
including zero and negative pids; for such a pid the reported line is
whatever outcome the kernel returns, not an input-validation error. -/
theorem claim_C7_amended (kernel : Kernel) (capd : CapabilitySet) (pid : Int)
    (_hp : pid ≤ 0) : (runLoop kernel capd [pid]).1 = [eventOf kernel pid] := by
  cases hk : kernel pid <;> simp [runLoop, processOne, eventOf, hk]

theorem claim_C7_amended_witness :
    (-5 : Int) ≤ 0 ∧
    (runLoop kernelA CapabilitySet.empty [-5]).1 = [eventOf kernelA (-5)] :=
  ⟨by decide, claim_C7_amended kernelA CapabilitySet.empty (-5) (by decide)⟩

/-- C8 counterexample: capability-set storage is reused across pids — after
the batch [1, 2] in which pid 1 fills the working set and pid 2's query
fails, the single working set still holds pid 1's non-empty contents. -/
theorem claim_C8_counterexample :
    (runLoop kernelC CapabilitySet.empty [1, 2]).2 = sWitEff ∧
    sWitEff ≠ CapabilitySet.empty := by
  exact ⟨by decide, by decide⟩

/-- C8 amended: although one working capability set is reused across the
whole batch, every successful query overwrites it wholesale before it is
rendered and failures skip rendering, so the event reported for each pid
is a function of the kernel response for that pid alone — independent of
the initial buffer and of every previously processed pid. -/
theorem claim_C8_amended (kernel : Kernel) (capd : CapabilitySet)
    (pids : List Int) :
    (runLoop kernel capd pids).1 = pids.map (eventOf kernel) :=
  runLoop_events_eq_map kernel capd pids

/-- C9: the exit status is 1 exactly when no pid argument is supplied or
the initial allocation fails; otherwise it is 0, regardless of how many
per-pid queries fail. -/
theorem claim_C9_exit (kernel : Kernel) (allocOk : Bool) (args : List Int) :
    (mainRun kernel allocOk args).2 =
      if args = [] ∨ allocOk = false then 1 else 0 := by
  rw [mainRun]
  by_cases h : args = []
  · simp [h]
  · cases allocOk <;> simp [h]

/-- C10: every line the program emits — usage banner, allocation failure,
per-pid error reports and per-pid capability text — goes to the standard
error stream; standard output never receives a per-pid result. -/
theorem claim_C10_stderr (kernel : Kernel) (allocOk : Bool) (args : List Int) :
    ((mainRun kernel allocOk args).1).all
      (fun ev => ev.stream == OutStream.stderr) = true := by
  rw [mainRun]
  by_cases h : args = []
  · simp [h, usageEvent]
  · cases allocOk
    · simp [h, allocFailEvent]
    · simp only [h, if_neg, if_pos, if_true, Bool.true_eq]
      refine List.all_eq_true.2 ?_
      intro ev hev
      rw [runLoop_events_eq_map] at hev
      rcases List.mem_map.1 hev with ⟨p, _, rfl⟩
      simp [eventOf_stream]
